import Mathlib

/-!
Verification development for the cardiotensor repository
(orientation computation pipeline, streamline tracer and AmiraMesh writer).

The Python source is shallowly embedded: coordinates and vector components
are modelled as exact rationals (`ℚ`); the floating-point angle computation
(`np.arccos`, `np.linalg.norm`) is modelled over the reals (`ℝ`); a NaN
vector at a voxel is modelled by `Option.none`; file writes are modelled as
the list of lines written.
-/

/-- A 3-component vector (z, y, x ordering, as in the source arrays of
shape (3, Z, Y, X)). Components are exact rationals. -/
structure Vec3 where
  z : ℚ
  y : ℚ
  x : ℚ
deriving DecidableEq, Repr

/-- Sum of squared components, as a rational. -/
def sumsqQ (v : Vec3) : ℚ := v.z ^ 2 + v.y ^ 2 + v.x ^ 2

/-- Componentwise addition (`current_point + direction_vector`). -/
def addV (u v : Vec3) : Vec3 := ⟨u.z + v.z, u.y + v.y, u.x + v.x⟩

/-- Scalar multiple (`vector_field[:, z, y, x] * segment_length`). -/
def smulV (c : ℚ) (v : Vec3) : Vec3 := ⟨v.z * c, v.y * c, v.x * c⟩

/-- Componentwise negation (`-v`). -/
def negV (v : Vec3) : Vec3 := ⟨-v.z, -v.y, -v.x⟩

/-- `numpy.ndarray.any()` on a 3-vector: true iff some component is nonzero.
The empty initial `direction_vector_tmp = np.array([])` also has `any() = False`
and is modelled by the zero vector. -/
def anyNZ (v : Vec3) : Prop := ¬(v.z = 0 ∧ v.y = 0 ∧ v.x = 0)

instance (v : Vec3) : Decidable (anyNZ v) := by unfold anyNZ; infer_instance

/-- `angle_between_vectors` from `cardiotensor/export/amira_writer.py`:
dot product over the component axis, magnitudes floored at `epsilon = 1e-10`,
cosine clipped to `[-1, 1]`, result converted from radians to degrees. -/
noncomputable def angle_between_vectors (vec1 vec2 : Vec3) : ℝ :=
  let dot_product : ℝ := ((vec1.z * vec2.z + vec1.y * vec2.y + vec1.x * vec2.x : ℚ) : ℝ)
  let magnitude_vec1 : ℝ := max (Real.sqrt ((sumsqQ vec1 : ℚ) : ℝ)) (1 / 10 ^ 10)
  let magnitude_vec2 : ℝ := max (Real.sqrt ((sumsqQ vec2 : ℚ) : ℝ)) (1 / 10 ^ 10)
  let cos_theta : ℝ := dot_product / (magnitude_vec1 * magnitude_vec2)
  let cos_clipped : ℝ := max (-1) (min cos_theta 1)
  Real.arccos cos_clipped * (180 / Real.pi)

/-- `scale_points` from `amira_writer.py`: multiply every coordinate of
every point of every polyline by `pixel_size`. -/
def scale_points (consecutive_points : List (List (ℚ × ℚ × ℚ))) (pixel_size : ℚ) :
    List (List (ℚ × ℚ × ℚ)) :=
  consecutive_points.map fun point_list =>
    point_list.map fun point =>
      (point.1 * pixel_size, point.2.1 * pixel_size, point.2.2 * pixel_size)

/-- A 3-vector with real components, for the orientation pipeline whose
normalization divides by a (generally irrational) Euclidean norm. -/
structure RVec3 where
  z : ℝ
  y : ℝ
  x : ℝ

/-- `np.linalg.norm(vec, axis=0)`: Euclidean norm of one voxel's vector. -/
noncomputable def vecNormR (v : RVec3) : ℝ := Real.sqrt (v.z ^ 2 + v.y ^ 2 + v.x ^ 2)

/-- The vector post-processing step of `compute_orientation`
(`orientation_computation_pipeline.py`, lines 306-314), applied to each
voxel's eigenvector after padding removal: `vec = vec / np.linalg.norm(vec,
axis=0)`.  The subsequent sign-flip (`negative_z = vec[2, :] < 0;
vec[:, negative_z] *= -1`) is commented out in the source, so no flip of any
kind is applied here. -/
noncomputable def normalizeVecStep (v : RVec3) : RVec3 :=
  ⟨v.z / vecNormR v, v.y / vecNormR v, v.x / vecNormR v⟩

/-- The vector alignment step of `amira_writer`
(`amira_writer.py`, line 264): `vector_field[:, vector_field[0] > 0] *= -1`,
i.e. every vector whose first component is positive is negated. -/
def amiraAlignFlip (v : Vec3) : Vec3 := if 0 < v.z then negV v else v

/-- `np.round` on one coordinate: round half to even (banker's rounding),
followed by `int(...)`, which is the identity on an integral value. -/
def roundHalfEven (q : ℚ) : ℤ :=
  let f : ℤ := ⌊q⌋
  let r : ℚ := q - f
  if r < 1 / 2 then f
  else if 1 / 2 < r then f + 1
  else if 2 ∣ f then f else f + 1

/-- Python `int(...)` on a rational: truncation toward zero. -/
def truncQ (q : ℚ) : ℤ := if 0 ≤ q then ⌊q⌋ else ⌈q⌉

/-- `tuple(map(int, np.round(p)))` on a 3-vector of coordinates. -/
def roundV (v : Vec3) : ℤ × ℤ × ℤ := (roundHalfEven v.z, roundHalfEven v.y, roundHalfEven v.x)

/-- `tuple(map(int, p))` on a 3-vector, kept as rational coordinates
(the source stores ints back into the float-valued current point). -/
def truncV (v : Vec3) : Vec3 := ⟨(truncQ v.z : ℚ), (truncQ v.y : ℚ), (truncQ v.x : ℚ)⟩

/-- The vector field of shape (3, Z, Y, X).  `vecAt z y x = none` models a
voxel whose vector has a NaN component (`np.isnan(...).any()`). -/
structure VectorField where
  dimZ : ℕ
  dimY : ℕ
  dimX : ℕ
  vecAt : ℤ → ℤ → ℤ → Option Vec3

/-- The bounds test `0 <= z < shape[1] and 0 <= y < shape[2] and 0 <= x < shape[3]`. -/
def inBoundsZ (F : VectorField) (z y x : ℤ) : Prop :=
  0 ≤ z ∧ z < (F.dimZ : ℤ) ∧ 0 ≤ y ∧ y < (F.dimY : ℤ) ∧ 0 ≤ x ∧ x < (F.dimX : ℤ)

instance (F : VectorField) (z y x : ℤ) : Decidable (inBoundsZ F z y x) := by
  unfold inBoundsZ; infer_instance

/-- The bounds test applied to a rounded coordinate triple. -/
def inBoundsT (F : VectorField) (p : ℤ × ℤ × ℤ) : Prop := inBoundsZ F p.1 p.2.1 p.2.2

instance (F : VectorField) (p : ℤ × ℤ × ℤ) : Decidable (inBoundsT F p) := by
  unfold inBoundsT; infer_instance

open Classical in
/-- The `for _ in range(num_steps)` loop body of `find_consecutive_points`
(`amira_writer.py`, lines 66-101), returning the list of points appended
after the seed.  State: remaining fuel, `current_point`, and
`direction_vector_tmp` (the zero vector models the initial empty array as
well as a genuinely zero previous direction, both of which make
`direction_vector_tmp.any()` false and skip the angle check). -/
noncomputable def fcpLoop (F : VectorField) (segment_length angle_threshold : ℚ) :
    ℕ → Vec3 → Vec3 → List Vec3
  | 0, _, _ => []
  | fuel + 1, current, prev =>
    let zi := roundHalfEven current.z
    let yi := roundHalfEven current.y
    let xi := roundHalfEven current.x
    if inBoundsZ F zi yi xi then
      match F.vecAt zi yi xi with
      | none => []
      | some v =>
        let direction_vector := smulV segment_length v
        if anyNZ prev ∧ angle_between_vectors prev direction_vector > (angle_threshold : ℝ) then
          []
        else
          let next_point := addV current direction_vector
          if inBoundsT F (roundV next_point) then
            next_point :: fcpLoop F segment_length angle_threshold fuel
              (truncV next_point) direction_vector
          else []
    else []

/-- `find_consecutive_points` from `amira_writer.py`: the seed (as floats)
followed by the points produced by the stepping loop. -/
noncomputable def find_consecutive_points (start_point : ℤ × ℤ × ℤ) (F : VectorField)
    (num_steps : ℕ) (segment_length angle_threshold : ℚ) : List Vec3 :=
  let s : Vec3 := ⟨(start_point.1 : ℚ), (start_point.2.1 : ℚ), (start_point.2.2 : ℚ)⟩
  s :: fcpLoop F segment_length angle_threshold num_steps s ⟨0, 0, 0⟩

/-- The streamline retention filter of `amira_writer` (lines 299-300): a
traced polyline is kept iff its length is at least
`segment_min_length_threshold`. -/
def filterSegments (segment_min_length_threshold : ℕ) (segs : List (List Vec3)) :
    List (List Vec3) :=
  segs.filter fun s => segment_min_length_threshold ≤ s.length

/-- Position iterates of the tracer for a spatially constant direction
vector `dv`: the current point after `k` executed steps
(`current_point = tuple(map(int, next_point))` truncates each coordinate). -/
def constIter (start dv : Vec3) : ℕ → Vec3
  | 0 => start
  | k + 1 => truncV (addV (constIter start dv k) dv)

/-- One coordinate-triple data line, `f"{p[0]} {p[1]} {p[2]}"`. -/
def fmtPt (p : ℚ × ℚ × ℚ) : String :=
  toString p.1 ++ " " ++ toString p.2.1 ++ " " ++ toString p.2.2

/-- One edge-connectivity data line, `f"{i * 2} {i * 2 + 1}"`. -/
def fmtEdge (i : ℕ) : String := toString (i * 2) ++ " " ++ toString (i * 2 + 1)

/-- Lines of the fixed header of the `.am` file (the writes up to and
including `"@1\n"`): the banner, the three `define` count lines computed
from the streamline list, the `Parameters` block and the seven typed field
declarations. -/
def amHeader (consecutive_points_list : List (List (ℚ × ℚ × ℚ))) : List String :=
  ["# AmiraMesh 3D ASCII 3.0", "", "",
   "define VERTEX " ++ toString (consecutive_points_list.length * 2),
   "define EDGE " ++ toString consecutive_points_list.length,
   "define POINT " ++ toString (consecutive_points_list.map List.length).sum,
   "", "Parameters \x7b", "    ContentType \"HxSpatialGraph\"", "\x7d", "",
   "VERTEX \x7b float[3] VertexCoordinates \x7d @1",
   "EDGE \x7b int[2] EdgeConnectivity \x7d @2",
   "EDGE \x7b int NumEdgePoints \x7d @3",
   "POINT \x7b float[3] EdgePointCoordinates \x7d @4",
   "POINT \x7b float thickness \x7d @5",
   "POINT \x7b float HA_angle \x7d @6",
   "POINT \x7b float z_angle \x7d @7",
   "", "# Data section follows",
   "@1"]

/-- `@1` data: start and end vertex of every streamline with at least two
points. -/
def amVertexLines (consecutive_points_list : List (List (ℚ × ℚ × ℚ))) : List String :=
  (consecutive_points_list.map fun segment =>
    if 2 ≤ segment.length then
      [fmtPt (segment.headD (0, 0, 0)), fmtPt (segment.getLastD (0, 0, 0))]
    else []).flatten

/-- `@2` data: edge connectivity pairs `i * 2, i * 2 + 1`. -/
def amEdgeLines (consecutive_points_list : List (List (ℚ × ℚ × ℚ))) : List String :=
  (List.range consecutive_points_list.length).map fmtEdge

/-- `@3` data: the number of points of each streamline, one per line. -/
def amCountLines (consecutive_points_list : List (List (ℚ × ℚ × ℚ))) : List String :=
  consecutive_points_list.map fun segment => toString segment.length

/-- `@4` data: every point of every streamline. -/
def amPointLines (consecutive_points_list : List (List (ℚ × ℚ × ℚ))) : List String :=
  (consecutive_points_list.map fun segment => segment.map fmtPt).flatten

/-- `@5` data: constant thickness `1.0`, one line per point. -/
def amThickLines (consecutive_points_list : List (List (ℚ × ℚ × ℚ))) : List String :=
  (consecutive_points_list.map fun segment =>
    List.replicate segment.length "1.0").flatten

/-- `write_am_file` from `amira_writer.py`, modelled as the list of lines of
the written file (each `f.write` contributes its newline-separated lines, in
order; the file is the concatenation of these lines, each followed by a
newline). -/
def write_am_file (consecutive_points_list : List (List (ℚ × ℚ × ℚ)))
    (HA_angle z_angle : List ℚ) : List String :=
  amHeader consecutive_points_list
  ++ amVertexLines consecutive_points_list
  ++ ["", "@2"]
  ++ amEdgeLines consecutive_points_list
  ++ ["", "@3"]
  ++ amCountLines consecutive_points_list
  ++ ["", "@4"]
  ++ amPointLines consecutive_points_list
  ++ ["", "@5"]
  ++ amThickLines consecutive_points_list
  ++ ["", "@6"]
  ++ HA_angle.map (fun angle => toString angle)
  ++ ["", "@7"]
  ++ z_angle.map (fun angle => toString angle)

/-- The data lines of the section tagged by `marker`: everything after the
first line equal to `marker`, up to the blank line that precedes the next
section tag. -/
def sectionAt (lines : List String) (marker : String) : List String :=
  ((lines.dropWhile fun l => l ≠ marker).drop 1).takeWhile fun l => l ≠ ""

/-- `f"{n:06d}"` for a nonnegative index: decimal digits left-padded with
zeros to width 6. -/
def pad6 (n : ℕ) : String :=
  let s := toString n
  String.mk (List.replicate (6 - s.length) (Char.ofNat 48)) ++ s

/-- Helix-angle artifact path `f"{OUTPUT_DIR}/HA/HA_{idx:06d}.tif"`. -/
def haPath (outputDir : String) (idx : ℕ) : String :=
  outputDir ++ "/HA/HA_" ++ pad6 idx ++ ".tif"

/-- Intrusion-angle artifact path `f"{OUTPUT_DIR}/IA/IA_{idx:06d}.tif"`. -/
def iaPath (outputDir : String) (idx : ℕ) : String :=
  outputDir ++ "/IA/IA_" ++ pad6 idx ++ ".tif"

/-- Fractional-anisotropy artifact path `f"{OUTPUT_DIR}/FA/FA_{idx:06d}.tif"`. -/
def faPath (outputDir : String) (idx : ℕ) : String :=
  outputDir ++ "/FA/FA_" ++ pad6 idx ++ ".tif"

/-- Per-slice eigenvector artifact path
`f"{OUTPUT_DIR}/eigen_vec/eigen_vec_{idx:06d}.npy"` (spec §6 artifact layout;
written by `write_vector_field`, which lives outside this repository slice). -/
def vecPath (outputDir : String) (idx : ℕ) : String :=
  outputDir ++ "/eigen_vec/eigen_vec_" ++ pad6 idx ++ ".npy"

/-- Observable effect of one `compute_slice_angles_and_anisotropy` call. -/
inductive SliceAction where
  /-- The early `return` at lines 450-452: nothing computed, nothing written. -/
  | earlyReturn : SliceAction
  /-- Test mode: `plot_images`, no file written. -/
  | plot : SliceAction
  /-- Normal mode: the listed artifact paths are written. -/
  | writeFiles : List String → SliceAction
deriving DecidableEq

/-- Control skeleton of `compute_slice_angles_and_anisotropy`
(`orientation_computation_pipeline.py`, lines 410-477).  `fs` is the set of
paths that exist on disk.  The existence check covers exactly the three
angle-image paths, as in the source; the written-paths payload of the normal
branch follows the spec §6 artifact layout (the writers `write_images` /
`write_vector_field` are outside this repository slice). -/
def compute_slice_angles_and_anisotropy (fs : List String) (outputDir : String)
    (start_index z : ℕ) (IS_VECTORS IS_TEST : Bool) : SliceAction :=
  let paths := [haPath outputDir (start_index + z), iaPath outputDir (start_index + z),
    faPath outputDir (start_index + z)]
  if IS_TEST = false ∧ ∀ p ∈ paths, p ∈ fs then SliceAction.earlyReturn
  else if IS_TEST then SliceAction.plot
  else SliceAction.writeFiles
    (paths ++ if IS_VECTORS then [vecPath outputDir (start_index + z)] else [])

/-- Paths written by a slice action. -/
def writesOf : SliceAction → List String
  | SliceAction.earlyReturn => []
  | SliceAction.plot => []
  | SliceAction.writeFiles l => l

/-- `valid_indices = np.argwhere(mask_volume == 1)` from `amira_writer`
(lines 266-271): every voxel coordinate, in row-major (z, y, x) order, whose
vector has no NaN component. -/
def validIndices (F : VectorField) : List (ℕ × ℕ × ℕ) :=
  (List.range F.dimZ).flatMap fun (z : ℕ) =>
    (List.range F.dimY).flatMap fun (y : ℕ) =>
      (List.range F.dimX).filterMap fun (x : ℕ) =>
        if (F.vecAt (z : ℤ) (y : ℤ) (x : ℤ)).isSome then some (z, y, x) else none

/-- The seeding stage of `amira_writer` (lines 270-281): exit fatally when
fewer valid voxels exist than requested, otherwise keep the rows of
`valid_indices` selected by `np.random.choice(.., replace=False)`.  The
random draw is modelled by the index list `choice`; numpy guarantees it
consists of distinct indices below `len(valid_indices)`. -/
def seedStage (F : VectorField) (num_ini_points : ℕ) (choice : List ℕ) :
    Except String (List (ℕ × ℕ × ℕ)) :=
  if (validIndices F).length < num_ini_points then
    Except.error "Exiting due to insufficient valid points in the mask."
  else
    Except.ok (choice.map fun i => (validIndices F).getD i (0, 0, 0))

/-! ## General lemmas about the embedded operations -/

/-- The dot product in `angle_between_vectors v v` is the squared magnitude. -/
lemma dot_self_eq_sumsq (w : Vec3) :
    ((w.z * w.z + w.y * w.y + w.x * w.x : ℚ) : ℝ) = ((sumsqQ w : ℚ) : ℝ) := by
  unfold sumsqQ; push_cast; ring

/-- A vector whose squared magnitude is at least `epsilon ^ 2` has angle `0`
with itself: the epsilon floor is inactive, the cosine is exactly `1`, and
`arccos 1 = 0`. -/
lemma angle_between_vectors_self (w : Vec3) (h : ((1 : ℚ) / 10 ^ 10) ^ 2 ≤ sumsqQ w) :
    angle_between_vectors w w = 0 := by
  simp only [angle_between_vectors]
  have hcast : (((1 : ℚ) / 10 ^ 10 : ℚ) : ℝ) = (1 : ℝ) / 10 ^ 10 := by push_cast; ring
  have h2 : ((1 : ℝ) / 10 ^ 10) ^ 2 ≤ ((sumsqQ w : ℚ) : ℝ) := by
    rw [← hcast, ← Rat.cast_pow]
    exact Rat.cast_le.mpr h
  have hs0 : (0 : ℝ) < ((sumsqQ w : ℚ) : ℝ) := lt_of_lt_of_le (by positivity) h2
  have hsqrt : (1 : ℝ) / 10 ^ 10 ≤ Real.sqrt ((sumsqQ w : ℚ) : ℝ) := by
    have := Real.sqrt_le_sqrt h2
    rwa [Real.sqrt_sq (by positivity : (0 : ℝ) ≤ 1 / 10 ^ 10)] at this
  rw [dot_self_eq_sumsq, max_eq_left hsqrt, Real.mul_self_sqrt hs0.le,
    div_self hs0.ne.symm]
  norm_num [Real.arccos_one]

/-- The square root of a unit squared magnitude is `1`. -/
lemma sqrt_sumsq_one (v : Vec3) (h : sumsqQ v = 1) :
    Real.sqrt ((sumsqQ v : ℚ) : ℝ) = 1 := by rw [h]; norm_num

/-! ## C10 -/

/-- C10: `angle_between_vectors` is total and always yields a value in
`[0, 180]` degrees for every pair of (finite) input vectors, zero vectors
included: magnitudes are floored at `1e-10` and the cosine is clipped to
`[-1, 1]`, and `arccos` maps into `[0, π]`. -/
theorem angle_between_vectors_range (u v : Vec3) :
    0 ≤ angle_between_vectors u v ∧ angle_between_vectors u v ≤ 180 := by
  unfold angle_between_vectors
  constructor
  · exact mul_nonneg (Real.arccos_nonneg _) (by positivity)
  · calc Real.arccos _ * (180 / Real.pi) ≤ Real.pi * (180 / Real.pi) := by
          apply mul_le_mul_of_nonneg_right (Real.arccos_le_pi _) (by positivity)
        _ = 180 := by field_simp

/-! ## C8 -/

/-- C8: for every unit vector `v`, the angle between `v` and itself is `0`
degrees and the angle between `v` and `-v` is `180` degrees. -/
theorem angle_between_vectors_self_and_neg (v : Vec3) (h : sumsqQ v = 1) :
    angle_between_vectors v v = 0 ∧ angle_between_vectors v (negV v) = 180 := by
  constructor
  · exact angle_between_vectors_self v (by rw [h]; norm_num)
  · unfold angle_between_vectors
    have hdot : (v.z * (negV v).z + v.y * (negV v).y + v.x * (negV v).x : ℚ) = -1 := by
      rw [← h]; unfold sumsqQ negV; ring
    have hs : sumsqQ (negV v) = 1 := by rw [← h]; unfold sumsqQ negV; ring
    rw [hdot, sqrt_sumsq_one v h, sqrt_sumsq_one (negV v) hs]
    have hmax : max (1 : ℝ) (1 / 10 ^ 10) = 1 := by rw [max_eq_left]; norm_num
    rw [hmax]
    push_cast
    norm_num [Real.arccos_neg_one]
    field_simp

/-- Witness for C8 at the concrete unit vector `(0, 0, 1)`. -/
theorem angle_between_vectors_self_and_neg_witness :
    sumsqQ ⟨0, 0, 1⟩ = 1 ∧ angle_between_vectors ⟨0, 0, 1⟩ ⟨0, 0, 1⟩ = 0 ∧
      angle_between_vectors ⟨0, 0, 1⟩ (negV ⟨0, 0, 1⟩) = 180 := by
  have h : sumsqQ (⟨0, 0, 1⟩ : Vec3) = 1 := by unfold sumsqQ; norm_num
  exact ⟨h, (angle_between_vectors_self_and_neg ⟨0, 0, 1⟩ h).1,
    (angle_between_vectors_self_and_neg ⟨0, 0, 1⟩ h).2⟩

/-! ## C9 -/

/-- C9: scaling every coordinate by `1/s` and then by `s` is the identity on
every nested point list, for every positive scale `s`. -/
theorem scale_points_roundtrip (pts : List (List (ℚ × ℚ × ℚ))) (s : ℚ) (h : 0 < s) :
    scale_points (scale_points pts (1 / s)) s = pts := by
  unfold scale_points
  rw [List.map_map]
  apply List.map_id''
  intro pl
  simp only [Function.comp_def, List.map_map]
  apply List.map_id''
  intro p
  obtain ⟨a, b, c⟩ := p
  have hs1 : ∀ q : ℚ, q * s⁻¹ * s = q := fun q => by field_simp
  simp [Function.comp_def, hs1]

/-- Witness for C9 at a concrete point list and scale `s = 2`. -/
theorem scale_points_roundtrip_witness :
    (0 : ℚ) < 2 ∧
      scale_points (scale_points [[(1, 2, 3)], [(4, 5, 6), (7, 8, 9)]] (1 / 2)) 2
        = [[(1, 2, 3)], [(4, 5, 6), (7, 8, 9)]] :=
  ⟨by norm_num, scale_points_roundtrip [[(1, 2, 3)], [(4, 5, 6), (7, 8, 9)]] 2 (by norm_num)⟩

/-! ## C1 -/

/-- C1 counterexample: the defined vector `(1, 0, 0)` (positive first/Z
component) passes through the post-stripping vector processing of
`compute_orientation` unchanged — no sign flip is applied — so a vector
with positive Z component is dispatched to slice processing, contradicting
the claim that every dispatched vector has a non-positive Z component. -/
theorem compute_orientation_positive_z_counterexample :
    ¬ ((normalizeVecStep ⟨1, 0, 0⟩).z ≤ 0) := by
  simp only [normalizeVecStep, vecNormR]
  norm_num

/-- C1 as amended: after padding slices are stripped, `compute_orientation`
only unit-normalizes the eigenvector field (`vec = vec / np.linalg.norm(vec,
axis=0)`); the sign-flip is commented out in the source, so the sign of every
component — in particular the first (Z) one — is preserved.  (The flip of
vectors with positive first component happens later, in `amira_writer`.) -/
theorem compute_orientation_normalize_unit_no_flip (v : RVec3) (h : vecNormR v ≠ 0) :
    vecNormR (normalizeVecStep v) = 1 ∧ (0 < (normalizeVecStep v).z ↔ 0 < v.z) := by
  have hs0 : (0 : ℝ) ≤ v.z ^ 2 + v.y ^ 2 + v.x ^ 2 := by positivity
  have hn0 : 0 < vecNormR v := lt_of_le_of_ne (Real.sqrt_nonneg _) (Ne.symm h)
  have hsq : vecNormR v ^ 2 = v.z ^ 2 + v.y ^ 2 + v.x ^ 2 := Real.sq_sqrt hs0
  have hspos : 0 < v.z ^ 2 + v.y ^ 2 + v.x ^ 2 := hsq ▸ pow_pos hn0 2
  constructor
  · show Real.sqrt ((v.z / vecNormR v) ^ 2 + (v.y / vecNormR v) ^ 2
      + (v.x / vecNormR v) ^ 2) = 1
    rw [div_pow, div_pow, div_pow, div_add_div_same, div_add_div_same, hsq,
      div_self hspos.ne.symm, Real.sqrt_one]
  · show 0 < v.z / vecNormR v ↔ 0 < v.z
    constructor
    · intro hz
      by_contra hle
      push_neg at hle
      have : v.z / vecNormR v ≤ 0 := div_nonpos_of_nonpos_of_nonneg hle hn0.le
      linarith
    · intro hz
      exact div_pos hz hn0

/-- Witness for the amended C1 at the concrete vector `(1, 2, 2)` of norm 3. -/
theorem compute_orientation_normalize_unit_no_flip_witness :
    vecNormR ⟨1, 2, 2⟩ ≠ 0 ∧ vecNormR (normalizeVecStep ⟨1, 2, 2⟩) = 1 ∧
      (0 < (normalizeVecStep ⟨1, 2, 2⟩).z ↔ 0 < (RVec3.mk 1 2 2).z) := by
  have h : vecNormR (⟨1, 2, 2⟩ : RVec3) ≠ 0 := by
    show Real.sqrt ((1 : ℝ) ^ 2 + 2 ^ 2 + 2 ^ 2) ≠ 0
    rw [show ((1 : ℝ) ^ 2 + 2 ^ 2 + 2 ^ 2) = 3 ^ 2 by norm_num,
      Real.sqrt_sq (by norm_num : (0 : ℝ) ≤ 3)]
    norm_num
  exact ⟨h, (compute_orientation_normalize_unit_no_flip ⟨1, 2, 2⟩ h).1,
    (compute_orientation_normalize_unit_no_flip ⟨1, 2, 2⟩ h).2⟩

/-! ## C2 -/

/-- C2: when not in test mode and all required output artifacts for a slice
already exist — the helix-angle, intrusion-angle and fractional-anisotropy
images, and (when vector output is requested) the per-slice eigenvector
file — `compute_slice_angles_and_anisotropy` returns immediately, computing
nothing and writing no file.  (The source's existence check covers the three
angle images; the additional existence of the eigenvector file assumed by
the claim only strengthens the hypothesis.) -/
theorem compute_slice_early_return (fs : List String) (outputDir : String)
    (start_index z : ℕ) (IS_VECTORS : Bool)
    (hHA : haPath outputDir (start_index + z) ∈ fs)
    (hIA : iaPath outputDir (start_index + z) ∈ fs)
    (hFA : faPath outputDir (start_index + z) ∈ fs)
    (_hVec : IS_VECTORS = true → vecPath outputDir (start_index + z) ∈ fs) :
    compute_slice_angles_and_anisotropy fs outputDir start_index z IS_VECTORS false
        = SliceAction.earlyReturn ∧
      writesOf (compute_slice_angles_and_anisotropy fs outputDir start_index z
        IS_VECTORS false) = [] := by
  have hall : (false = false) ∧ ∀ p ∈ [haPath outputDir (start_index + z),
      iaPath outputDir (start_index + z), faPath outputDir (start_index + z)], p ∈ fs := by
    refine ⟨rfl, ?_⟩
    intro p hp
    simp only [List.mem_cons, List.mem_singleton, List.not_mem_nil] at hp
    rcases hp with h | h | h | h
    · exact h ▸ hHA
    · exact h ▸ hIA
    · exact h ▸ hFA
    · exact absurd h (by simp)
  have : compute_slice_angles_and_anisotropy fs outputDir start_index z IS_VECTORS false
      = SliceAction.earlyReturn := by
    unfold compute_slice_angles_and_anisotropy
    rw [if_pos hall]
  exact ⟨this, by rw [this]; rfl⟩

/-- Witness for C2 on a concrete filesystem containing all four artifacts of
slice 0. -/
theorem compute_slice_early_return_witness :
    compute_slice_angles_and_anisotropy
        [haPath "out" 0, iaPath "out" 0, faPath "out" 0, vecPath "out" 0]
        "out" 0 0 true false = SliceAction.earlyReturn :=
  (compute_slice_early_return
    [haPath "out" 0, iaPath "out" 0, faPath "out" 0, vecPath "out" 0]
    "out" 0 0 true (by simp) (by simp) (by simp) (fun _ => by simp)).1

/-! ## Tracer step lemmas -/

/-- `np.round` then `int(...)` is the identity on an integer-valued coordinate. -/
lemma roundHalfEven_intCast (k : ℤ) : roundHalfEven (k : ℚ) = k := by
  simp only [roundHalfEven, Int.floor_intCast, sub_self]
  norm_num

/-- `int(...)` is the identity on an integer-valued coordinate. -/
lemma truncQ_intCast (k : ℤ) : truncQ (k : ℚ) = k := by
  unfold truncQ
  rw [Int.floor_intCast, Int.ceil_intCast]
  simp

/-- Evaluation helper: rounding a coordinate that equals an integer. -/
lemma roundHalfEven_eval (q : ℚ) (k : ℤ) (h : q = (k : ℚ)) : roundHalfEven q = k :=
  h ▸ roundHalfEven_intCast k

/-- Evaluation helper: truncating a coordinate that equals an integer. -/
lemma truncQ_eval (q : ℚ) (k : ℤ) (h : q = (k : ℚ)) : truncQ q = k :=
  h ▸ truncQ_intCast k

/-- One iteration of the tracer loop in which the current voxel is in
bounds, its vector is defined, and the angle check does not fire: the loop
advances by `vector * segment_length` and then either records the new point
and continues from its truncation (new rounded position in bounds) or stops
with nothing recorded (out of bounds). -/
lemma fcpLoop_step (F : VectorField) (segment_length angle_threshold : ℚ)
    (fuel : ℕ) (current prev v : Vec3)
    (hb : inBoundsT F (roundV current))
    (hv : F.vecAt (roundV current).1 (roundV current).2.1 (roundV current).2.2 = some v)
    (hangle : ¬(anyNZ prev ∧
      angle_between_vectors prev (smulV segment_length v) > (angle_threshold : ℝ))) :
    fcpLoop F segment_length angle_threshold (fuel + 1) current prev
      = if inBoundsT F (roundV (addV current (smulV segment_length v)))
        then addV current (smulV segment_length v)
          :: fcpLoop F segment_length angle_threshold fuel
               (truncV (addV current (smulV segment_length v))) (smulV segment_length v)
        else [] := by
  have hb2 : inBoundsZ F (roundHalfEven current.z) (roundHalfEven current.y)
      (roundHalfEven current.x) := hb
  have hv2 : F.vecAt (roundHalfEven current.z) (roundHalfEven current.y)
      (roundHalfEven current.x) = some v := hv
  simp only [fcpLoop]
  rw [if_pos hb2, hv2]
  simp only
  rw [if_neg hangle]

/-! ## C3 -/

/-- A 1x1x1 vector field whose single voxel points along +Z. -/
def F1 : VectorField := ⟨1, 1, 1, fun _ _ _ => some ⟨1, 0, 0⟩⟩

/-- The rounded integer seed of the `F1` trace. -/
lemma roundV_F1_seed :
    roundV ⟨((0 : ℤ) : ℚ), ((0 : ℤ) : ℚ), ((0 : ℤ) : ℚ)⟩ = (0, 0, 0) := by
  unfold roundV
  rw [roundHalfEven_eval _ 0 (by norm_num)]

/-- C3 counterexample: on the 1x1x1 field `F1` whose voxel vector is
`(1, 0, 0)` (non-NaN, no angle trip), the first iteration advances to
`(1, 0, 0)`, whose rounded coordinates are out of bounds — and the returned
polyline is just the seed: the out-of-bounds point is NOT recorded before
the streamline stops, contradicting the claim. -/
theorem tracer_out_of_bounds_counterexample :
    find_consecutive_points (0, 0, 0) F1 5 1 60 = [⟨0, 0, 0⟩] ∧
      (⟨1, 0, 0⟩ : Vec3) ∉ find_consecutive_points (0, 0, 0) F1 5 1 60 := by
  have hb : inBoundsT F1 (roundV ⟨((0 : ℤ) : ℚ), ((0 : ℤ) : ℚ), ((0 : ℤ) : ℚ)⟩) := by
    rw [roundV_F1_seed]
    show inBoundsZ F1 0 0 0
    unfold inBoundsZ F1
    norm_num
  have hv : F1.vecAt (roundV ⟨((0 : ℤ) : ℚ), ((0 : ℤ) : ℚ), ((0 : ℤ) : ℚ)⟩).1
      (roundV ⟨((0 : ℤ) : ℚ), ((0 : ℤ) : ℚ), ((0 : ℤ) : ℚ)⟩).2.1
      (roundV ⟨((0 : ℤ) : ℚ), ((0 : ℤ) : ℚ), ((0 : ℤ) : ℚ)⟩).2.2 = some ⟨1, 0, 0⟩ := rfl
  have hstep := fcpLoop_step F1 1 60 4 ⟨((0 : ℤ) : ℚ), ((0 : ℤ) : ℚ), ((0 : ℤ) : ℚ)⟩
    ⟨0, 0, 0⟩ ⟨1, 0, 0⟩ hb hv (fun hc => hc.1 ⟨rfl, rfl, rfl⟩)
  have hout : ¬ inBoundsT F1 (roundV (addV ⟨((0 : ℤ) : ℚ), ((0 : ℤ) : ℚ), ((0 : ℤ) : ℚ)⟩
      (smulV 1 ⟨1, 0, 0⟩))) := by
    unfold addV smulV roundV
    simp only
    rw [roundHalfEven_eval _ 1 (by norm_num), roundHalfEven_eval _ 0 (by norm_num)]
    show ¬ inBoundsZ F1 1 0 0
    unfold inBoundsZ F1
    norm_num
  have heval : find_consecutive_points (0, 0, 0) F1 5 1 60 = [⟨0, 0, 0⟩] := by
    show (⟨((0 : ℤ) : ℚ), ((0 : ℤ) : ℚ), ((0 : ℤ) : ℚ)⟩ : Vec3)
        :: fcpLoop F1 1 60 5 ⟨((0 : ℤ) : ℚ), ((0 : ℤ) : ℚ), ((0 : ℤ) : ℚ)⟩ ⟨0, 0, 0⟩
      = [⟨0, 0, 0⟩]
    rw [show (5 : ℕ) = 4 + 1 from rfl, hstep, if_neg hout]
    norm_num
  refine ⟨heval, ?_⟩
  rw [heval]
  intro hmem
  simp only [List.mem_singleton] at hmem
  exact absurd (congrArg Vec3.z hmem) (by norm_num)

/-- C3 as amended: in every tracer iteration in which the local vector is
defined and the angle threshold does not trip, the tracer computes the new
position `current + vector * segment_length`; if the new position's rounded
coordinates are in bounds, the new floating-point point is recorded and
tracing continues from its integer truncation — otherwise the streamline
stops WITHOUT recording the out-of-bounds point. -/
theorem tracer_step_records_only_in_bounds (F : VectorField)
    (segment_length angle_threshold : ℚ) (fuel : ℕ) (current prev v : Vec3)
    (hb : inBoundsT F (roundV current))
    (hv : F.vecAt (roundV current).1 (roundV current).2.1 (roundV current).2.2 = some v)
    (hangle : ¬(anyNZ prev ∧
      angle_between_vectors prev (smulV segment_length v) > (angle_threshold : ℝ))) :
    (inBoundsT F (roundV (addV current (smulV segment_length v))) →
      fcpLoop F segment_length angle_threshold (fuel + 1) current prev
        = addV current (smulV segment_length v)
          :: fcpLoop F segment_length angle_threshold fuel
               (truncV (addV current (smulV segment_length v))) (smulV segment_length v))
    ∧ (¬ inBoundsT F (roundV (addV current (smulV segment_length v))) →
      fcpLoop F segment_length angle_threshold (fuel + 1) current prev = []) := by
  rw [fcpLoop_step F segment_length angle_threshold fuel current prev v hb hv hangle]
  constructor
  · intro h; rw [if_pos h]
  · intro h; rw [if_neg h]

/-- Witness for the amended C3 on the concrete field `F1` (vector defined,
no angle trip, advanced position out of bounds, nothing recorded). -/
theorem tracer_step_records_only_in_bounds_witness :
    fcpLoop F1 1 60 1 ⟨((0 : ℤ) : ℚ), ((0 : ℤ) : ℚ), ((0 : ℤ) : ℚ)⟩ ⟨0, 0, 0⟩ = [] := by
  have hb : inBoundsT F1 (roundV ⟨((0 : ℤ) : ℚ), ((0 : ℤ) : ℚ), ((0 : ℤ) : ℚ)⟩) := by
    rw [roundV_F1_seed]
    show inBoundsZ F1 0 0 0
    unfold inBoundsZ F1
    norm_num
  have hout : ¬ inBoundsT F1 (roundV (addV ⟨((0 : ℤ) : ℚ), ((0 : ℤ) : ℚ), ((0 : ℤ) : ℚ)⟩
      (smulV 1 ⟨1, 0, 0⟩))) := by
    unfold addV smulV roundV
    simp only
    rw [roundHalfEven_eval _ 1 (by norm_num), roundHalfEven_eval _ 0 (by norm_num)]
    show ¬ inBoundsZ F1 1 0 0
    unfold inBoundsZ F1
    norm_num
  exact (tracer_step_records_only_in_bounds F1 1 60 0
    ⟨((0 : ℤ) : ℚ), ((0 : ℤ) : ℚ), ((0 : ℤ) : ℚ)⟩ ⟨0, 0, 0⟩ ⟨1, 0, 0⟩ hb rfl
    (fun hc => hc.1 ⟨rfl, rfl, rfl⟩)).2 hout

/-! ## C4 -/

/-- C4: for every vector field and every in-bounds seed whose (defined)
local vector makes the first advance land on out-of-bounds rounded
coordinates, `find_consecutive_points` returns exactly the one-point
polyline `[seed]`; and that streamline is discarded by the retention filter
whenever `1 < segment_min_length_threshold`. -/
theorem tracer_edge_seed_single_point (F : VectorField) (start_point : ℤ × ℤ × ℤ)
    (num_steps : ℕ) (segment_length angle_threshold : ℚ) (v : Vec3)
    (hb : inBoundsT F start_point)
    (hv : F.vecAt start_point.1 start_point.2.1 start_point.2.2 = some v)
    (hout : ¬ inBoundsT F (roundV (addV
      ⟨(start_point.1 : ℚ), (start_point.2.1 : ℚ), (start_point.2.2 : ℚ)⟩
      (smulV segment_length v)))) :
    find_consecutive_points start_point F num_steps segment_length angle_threshold
        = [⟨(start_point.1 : ℚ), (start_point.2.1 : ℚ), (start_point.2.2 : ℚ)⟩] ∧
      ∀ m : ℕ, 1 < m →
        filterSegments m [find_consecutive_points start_point F num_steps
          segment_length angle_threshold] = [] := by
  have hroundseed : roundV ⟨(start_point.1 : ℚ), (start_point.2.1 : ℚ),
      (start_point.2.2 : ℚ)⟩ = start_point := by
    unfold roundV
    simp only [roundHalfEven_intCast]
  have heq : find_consecutive_points start_point F num_steps segment_length angle_threshold
      = [⟨(start_point.1 : ℚ), (start_point.2.1 : ℚ), (start_point.2.2 : ℚ)⟩] := by
    show (⟨(start_point.1 : ℚ), (start_point.2.1 : ℚ), (start_point.2.2 : ℚ)⟩ : Vec3)
        :: fcpLoop F segment_length angle_threshold num_steps
          ⟨(start_point.1 : ℚ), (start_point.2.1 : ℚ), (start_point.2.2 : ℚ)⟩ ⟨0, 0, 0⟩
      = [⟨(start_point.1 : ℚ), (start_point.2.1 : ℚ), (start_point.2.2 : ℚ)⟩]
    cases num_steps with
    | zero => rfl
    | succ n =>
      rw [fcpLoop_step F segment_length angle_threshold n _ _ v
        (by rw [hroundseed]; exact hb)
        (by rw [hroundseed]; exact hv)
        (fun hc => hc.1 ⟨rfl, rfl, rfl⟩), if_neg hout]
  refine ⟨heq, fun m hm => ?_⟩
  rw [heq]
  unfold filterSegments
  rw [List.filter_cons]
  have hnle : ¬ (m ≤ ([⟨(start_point.1 : ℚ), (start_point.2.1 : ℚ),
      (start_point.2.2 : ℚ)⟩] : List Vec3).length) := by
    simp only [List.length_singleton]
    omega
  simp [hnle]
  omega

/-- Witness for C4 on the concrete 1x1x1 field `F1`, seed `(0, 0, 0)`
(one voxel from every edge) and outward vector `(1, 0, 0)`:
a one-point streamline, dropped by the filter at threshold 10. -/
theorem tracer_edge_seed_single_point_witness :
    find_consecutive_points (0, 0, 0) F1 7 1 60
        = [⟨((0 : ℤ) : ℚ), ((0 : ℤ) : ℚ), ((0 : ℤ) : ℚ)⟩] ∧
      filterSegments 10 [find_consecutive_points (0, 0, 0) F1 7 1 60] = [] := by
  have hb : inBoundsT F1 ((0, 0, 0) : ℤ × ℤ × ℤ) := by
    show inBoundsZ F1 0 0 0
    unfold inBoundsZ F1
    norm_num
  have hout : ¬ inBoundsT F1 (roundV (addV ⟨((0 : ℤ) : ℚ), ((0 : ℤ) : ℚ), ((0 : ℤ) : ℚ)⟩
      (smulV 1 ⟨1, 0, 0⟩))) := by
    unfold addV smulV roundV
    simp only
    rw [roundHalfEven_eval _ 1 (by norm_num), roundHalfEven_eval _ 0 (by norm_num)]
    show ¬ inBoundsZ F1 1 0 0
    unfold inBoundsZ F1
    norm_num
  have h := tracer_edge_seed_single_point F1 (0, 0, 0) 7 1 60 ⟨1, 0, 0⟩ hb rfl hout
  exact ⟨h.1, h.2 10 (by norm_num)⟩

/-! ## C6 -/

/-- Shifting the start of the constant-direction iterates by one step. -/
lemma constIter_shift (s dv : Vec3) (k : ℕ) :
    constIter (truncV (addV s dv)) dv k = constIter s dv (k + 1) := by
  induction k with
  | zero => rfl
  | succ k ih =>
    show truncV (addV (constIter (truncV (addV s dv)) dv k) dv) = _
    rw [ih]
    rfl

/-- On a field that is everywhere `some c`, a run of the tracer loop whose
iterates (and their advances) all stay in bounds executes all its fuel and
appends exactly one point per step. -/
lemma fcpLoop_const_length (F : VectorField) (c : Vec3) (segLen thr : ℚ)
    (hF : ∀ z y x : ℤ, F.vecAt z y x = some c)
    (hangle : ¬(anyNZ (smulV segLen c) ∧
      angle_between_vectors (smulV segLen c) (smulV segLen c) > (thr : ℝ))) :
    ∀ (n : ℕ) (start prev : Vec3),
      ¬(anyNZ prev ∧ angle_between_vectors prev (smulV segLen c) > (thr : ℝ)) →
      (∀ k < n, inBoundsT F (roundV (constIter start (smulV segLen c) k)) ∧
        inBoundsT F (roundV (addV (constIter start (smulV segLen c) k) (smulV segLen c)))) →
      (fcpLoop F segLen thr n start prev).length = n := by
  intro n
  induction n with
  | zero => intro start prev _ _; rfl
  | succ n ih =>
    intro start prev hprev hbounds
    have hb0 : inBoundsT F (roundV start) := (hbounds 0 (Nat.succ_pos n)).1
    have hadv : inBoundsT F (roundV (addV start (smulV segLen c))) :=
      (hbounds 0 (Nat.succ_pos n)).2
    rw [fcpLoop_step F segLen thr n start prev c hb0 (hF _ _ _) hprev, if_pos hadv,
      List.length_cons]
    congr 1
    apply ih _ _ hangle
    intro k hk
    rw [constIter_shift]
    exact hbounds (k + 1) (Nat.succ_lt_succ hk)

/-- C6: on a vector field that is everywhere the same unit vector `c`, with
a nonnegative angle threshold and a segment length of at least `epsilon`,
tracing from a seed all of whose `num_steps` advances stay within the
volume bounds never stops on the angle threshold and yields a polyline of
exactly `num_steps + 1` points (the seed plus one point per step). -/
theorem tracer_constant_field_full_length (F : VectorField) (c : Vec3)
    (start_point : ℤ × ℤ × ℤ) (num_steps : ℕ) (segment_length angle_threshold : ℚ)
    (hF : ∀ z y x : ℤ, F.vecAt z y x = some c)
    (hunit : sumsqQ c = 1)
    (hseg : (1 : ℚ) / 10 ^ 10 ≤ segment_length)
    (hthr : 0 ≤ angle_threshold)
    (hbounds : ∀ k < num_steps,
      inBoundsT F (roundV (constIter
        ⟨(start_point.1 : ℚ), (start_point.2.1 : ℚ), (start_point.2.2 : ℚ)⟩
        (smulV segment_length c) k)) ∧
      inBoundsT F (roundV (addV (constIter
        ⟨(start_point.1 : ℚ), (start_point.2.1 : ℚ), (start_point.2.2 : ℚ)⟩
        (smulV segment_length c) k) (smulV segment_length c)))) :
    (find_consecutive_points start_point F num_steps segment_length
      angle_threshold).length = num_steps + 1 := by
  have hsum : ((1 : ℚ) / 10 ^ 10) ^ 2 ≤ sumsqQ (smulV segment_length c) := by
    have hs : sumsqQ (smulV segment_length c) = segment_length ^ 2 * sumsqQ c := by
      unfold sumsqQ smulV
      ring
    rw [hs, hunit, mul_one]
    exact pow_le_pow_left₀ (by norm_num) hseg 2
  have hangle0 : angle_between_vectors (smulV segment_length c)
      (smulV segment_length c) = 0 := angle_between_vectors_self _ hsum
  have hangle : ¬(anyNZ (smulV segment_length c) ∧
      angle_between_vectors (smulV segment_length c) (smulV segment_length c)
        > (angle_threshold : ℝ)) := by
    rintro ⟨-, hgt⟩
    rw [hangle0] at hgt
    have h0 : (0 : ℝ) ≤ (angle_threshold : ℝ) := by exact_mod_cast hthr
    linarith
  show ((⟨(start_point.1 : ℚ), (start_point.2.1 : ℚ), (start_point.2.2 : ℚ)⟩ : Vec3)
      :: fcpLoop F segment_length angle_threshold num_steps
        ⟨(start_point.1 : ℚ), (start_point.2.1 : ℚ), (start_point.2.2 : ℚ)⟩
        ⟨0, 0, 0⟩).length = num_steps + 1
  rw [List.length_cons]
  congr 1
  exact fcpLoop_const_length F c segment_length angle_threshold hF hangle num_steps
    _ ⟨0, 0, 0⟩ (fun hc => hc.1 ⟨rfl, rfl, rfl⟩) hbounds

/-- A 4x1x1 vector field that is everywhere the unit vector `(1, 0, 0)`. -/
def F2 : VectorField := ⟨4, 1, 1, fun _ _ _ => some ⟨1, 0, 0⟩⟩

/-- Witness for C6: tracing 2 steps on the constant field `F2` from seed
`(0, 0, 0)` yields exactly 3 points. -/
theorem tracer_constant_field_full_length_witness :
    (find_consecutive_points (0, 0, 0) F2 2 1 60).length = 2 + 1 := by
  apply tracer_constant_field_full_length F2 ⟨1, 0, 0⟩ (0, 0, 0) 2 1 60
    (fun _ _ _ => rfl) (by unfold sumsqQ; norm_num) (by norm_num) (by norm_num)
  have hc1 : constIter ⟨((0 : ℤ) : ℚ), ((0 : ℤ) : ℚ), ((0 : ℤ) : ℚ)⟩
      (smulV 1 ⟨1, 0, 0⟩) 1 = ⟨((1 : ℤ) : ℚ), ((0 : ℤ) : ℚ), ((0 : ℤ) : ℚ)⟩ := by
    show truncV (addV ⟨((0 : ℤ) : ℚ), ((0 : ℤ) : ℚ), ((0 : ℤ) : ℚ)⟩ (smulV 1 ⟨1, 0, 0⟩)) = _
    unfold addV smulV truncV
    simp only
    rw [truncQ_eval _ 1 (by norm_num), truncQ_eval _ 0 (by norm_num)]
  intro k hk
  interval_cases k
  · constructor
    · show inBoundsT F2 (roundV ⟨((0 : ℤ) : ℚ), ((0 : ℤ) : ℚ), ((0 : ℤ) : ℚ)⟩)
      rw [roundV_F1_seed]
      show inBoundsZ F2 0 0 0
      unfold inBoundsZ F2
      norm_num
    · show inBoundsT F2 (roundV (addV ⟨((0 : ℤ) : ℚ), ((0 : ℤ) : ℚ), ((0 : ℤ) : ℚ)⟩
        (smulV 1 ⟨1, 0, 0⟩)))
      unfold addV smulV roundV
      simp only
      rw [roundHalfEven_eval _ 1 (by norm_num), roundHalfEven_eval _ 0 (by norm_num)]
      show inBoundsZ F2 1 0 0
      unfold inBoundsZ F2
      norm_num
  · constructor
    · rw [hc1]
      unfold roundV
      simp only [roundHalfEven_intCast]
      show inBoundsZ F2 1 0 0
      unfold inBoundsZ F2
      norm_num
    · rw [hc1]
      unfold addV smulV roundV
      simp only
      rw [roundHalfEven_eval _ 2 (by norm_num), roundHalfEven_eval _ 0 (by norm_num)]
      show inBoundsZ F2 2 0 0
      unfold inBoundsZ F2
      norm_num

/-! ## C7 -/

/-- Membership in the inner (fixed `z`, `y`) row of `validIndices` fixes
the first two coordinates. -/
lemma validIndices_inner_mem (F : VectorField) (z y : ℕ) (p : ℕ × ℕ × ℕ)
    (hp : p ∈ (List.range F.dimX).filterMap fun (x : ℕ) =>
      if (F.vecAt (z : ℤ) (y : ℤ) (x : ℤ)).isSome then some (z, y, x) else none) :
    p.1 = z ∧ p.2.1 = y := by
  rcases List.mem_filterMap.1 hp with ⟨x, -, hx⟩
  split_ifs at hx
  cases Option.some.inj hx
  exact ⟨rfl, rfl⟩

/-- Membership in the fixed-`z` plane of `validIndices` fixes the first
coordinate. -/
lemma validIndices_plane_mem (F : VectorField) (z : ℕ) (p : ℕ × ℕ × ℕ)
    (hp : p ∈ (List.range F.dimY).flatMap fun (y : ℕ) =>
      (List.range F.dimX).filterMap fun (x : ℕ) =>
        if (F.vecAt (z : ℤ) (y : ℤ) (x : ℤ)).isSome then some (z, y, x) else none) :
    p.1 = z := by
  rcases List.mem_flatMap.1 hp with ⟨y, -, hy⟩
  exact (validIndices_inner_mem F z y p hy).1

/-- The rows of `np.argwhere` are pairwise distinct coordinates. -/
lemma validIndices_nodup (F : VectorField) : (validIndices F).Nodup := by
  unfold validIndices
  refine List.nodup_flatMap.2 ⟨fun z _ => ?_, ?_⟩
  · refine List.nodup_flatMap.2 ⟨fun y _ => ?_, ?_⟩
    · refine List.Nodup.filterMap ?_ (List.nodup_range _)
      intro a b c hca hcb
      simp only [Option.mem_def] at hca hcb
      split_ifs at hca hcb
      cases Option.some.inj hca
      cases Option.some.inj hcb
      rfl
    · refine List.Pairwise.imp ?_ (List.nodup_range _)
      intro y1 y2 hne
      intro p hp1 hp2
      have h1 := (validIndices_inner_mem F _ y1 p hp1).2
      have h2 := (validIndices_inner_mem F _ y2 p hp2).2
      exact hne (h1 ▸ h2.symm ▸ rfl)
  · refine List.Pairwise.imp ?_ (List.nodup_range _)
    intro z1 z2 hne
    intro p hp1 hp2
    have h1 := validIndices_plane_mem F z1 p hp1
    have h2 := validIndices_plane_mem F z2 p hp2
    exact hne (h1 ▸ h2.symm ▸ rfl)

/-- C7: the seeding stage of `amira_writer` fails fatally precisely when
the number of valid (fully non-NaN) voxels is strictly below
`num_ini_points`; otherwise, for any without-replacement random draw
(distinct indices below the valid count, as `np.random.choice(...,
replace=False)` guarantees), it returns `num_ini_points` pairwise-distinct
voxel coordinates, each taken from the valid voxels. -/
theorem seed_stage_spec (F : VectorField) (num_ini_points : ℕ) (choice : List ℕ) :
    ((∃ msg, seedStage F num_ini_points choice = Except.error msg)
        ↔ (validIndices F).length < num_ini_points)
    ∧ (choice.length = num_ini_points → choice.Nodup →
       (∀ i ∈ choice, i < (validIndices F).length) →
       ¬ (validIndices F).length < num_ini_points →
       ∃ pts, seedStage F num_ini_points choice = Except.ok pts ∧
         pts.length = num_ini_points ∧ pts.Nodup ∧
         ∀ p ∈ pts, p ∈ validIndices F) := by
  constructor
  · constructor
    · rintro ⟨msg, hmsg⟩
      by_contra hlt
      unfold seedStage at hmsg
      rw [if_neg hlt] at hmsg
      cases hmsg
    · intro hlt
      exact ⟨_, by unfold seedStage; rw [if_pos hlt]⟩
  · intro hlen hnodup hbound hge
    refine ⟨choice.map fun i => (validIndices F).getD i (0, 0, 0), ?_, ?_, ?_, ?_⟩
    · unfold seedStage
      rw [if_neg hge]
    · rw [List.length_map, hlen]
    · apply List.Nodup.map_on _ hnodup
      intro i hi j hj hij
      rw [List.getD_eq_getElem _ _ (hbound i hi),
        List.getD_eq_getElem _ _ (hbound j hj)] at hij
      exact (List.Nodup.getElem_inj_iff (validIndices_nodup F)).1 hij
    · intro p hp
      rcases List.mem_map.1 hp with ⟨i, hi, rfl⟩
      rw [List.getD_eq_getElem _ _ (hbound i hi)]
      exact List.getElem_mem _

/-- A 1x1x2 vector field with both voxels valid. -/
def F3 : VectorField := ⟨1, 1, 2, fun _ _ _ => some ⟨1, 0, 0⟩⟩

/-- Witness for C7 on a concrete 1x1x2 all-valid field: request 2 seeds with
draw `[1, 0]` — no fatal exit, 2 distinct valid seeds; and the error iff
reduces to `2 < 2`, which is false. -/
theorem seed_stage_spec_witness :
    ((∃ msg, seedStage F3 2 [1, 0] = Except.error msg) ↔ (validIndices F3).length < 2)
    ∧ ∃ pts, seedStage F3 2 [1, 0] = Except.ok pts ∧ pts.length = 2 ∧ pts.Nodup ∧
        ∀ p ∈ pts, p ∈ validIndices F3 :=
  ⟨(seed_stage_spec F3 2 [1, 0]).1,
   (seed_stage_spec F3 2 [1, 0]).2 (by decide) (by decide) (by decide) (by decide)⟩

/-! ## C5 -/

/-- Decimal digit strings are never empty: `Nat.toDigits` always produces
at least one character. -/
lemma toDigits_length_pos (n : ℕ) : 0 < (Nat.toDigits 10 n).length := by
  unfold Nat.toDigits
  simp only [Nat.toDigitsCore]
  split
  · simp
  · rw [Nat.toDigitsCore_lens_eq]
    omega

/-- The decimal representation of a natural number is a nonempty string. -/
lemma nat_toString_ne_empty (n : ℕ) : toString n ≠ "" := by
  intro h
  have hlen : (Nat.toDigits 10 n).length = 0 := by
    have h2 : (toString n).length = 0 := by rw [h]; rfl
    exact h2
  have := toDigits_length_pos n
  omega

/-- Dropping up to a marker skips any prefix free of the marker. -/
lemma dropWhileNeAll (marker : String) (l1 l2 : List String)
    (h : ∀ a ∈ l1, a ≠ marker) :
    ((l1 ++ l2).dropWhile fun l => l ≠ marker)
      = l2.dropWhile fun l => l ≠ marker := by
  induction l1 with
  | nil => rfl
  | cons a l ih =>
    have ha : a ≠ marker := h a (List.mem_cons_self a l)
    rw [List.cons_append, List.dropWhile_cons, if_pos (by simp [ha])]
    exact ih fun b hb => h b (List.mem_cons_of_mem a hb)

/-- Taking up to a blank line returns exactly the blank-free data block. -/
lemma takeWhileNeAll (data rest : List String) (h : ∀ a ∈ data, a ≠ "") :
    ((data ++ "" :: rest).takeWhile fun l => l ≠ "") = data := by
  induction data with
  | nil => simp [List.takeWhile_cons]
  | cons a l ih =>
    have ha : a ≠ "" := h a (List.mem_cons_self a l)
    rw [List.cons_append, List.takeWhile_cons, if_pos (by simp [ha]),
      ih fun b hb => h b (List.mem_cons_of_mem a hb)]

/-- The data block of a `@n` section, extracted from a file in which the
marker occurs for the first time right before the block and the block is
terminated by a blank line. -/
lemma sectionAt_spec (pre data rest : List String) (marker : String)
    (hpre : ∀ l ∈ pre, l ≠ marker) (hdata : ∀ l ∈ data, l ≠ "") :
    sectionAt (pre ++ marker :: (data ++ "" :: rest)) marker = data := by
  unfold sectionAt
  rw [dropWhileNeAll marker pre _ hpre, List.dropWhile_cons, if_neg (by simp)]
  simp only [List.drop_succ_cons, List.drop_zero]
  exact takeWhileNeAll data rest hdata

/-- Two strings differ when one contains a character the other lacks. -/
lemma ne_of_space (s t : String) (hs : Char.ofNat 32 ∈ s.data)
    (ht : Char.ofNat 32 ∉ t.data) : s ≠ t := fun he => ht (he ▸ hs)

/-- A character of the left factor survives concatenation. -/
lemma space_mem_append_left (a b : String) (h : Char.ofNat 32 ∈ a.data) :
    Char.ofNat 32 ∈ (a ++ b).data := by
  rw [String.data_append]
  exact List.mem_append.2 (Or.inl h)

/-- A character of the right factor survives concatenation. -/
lemma space_mem_append_right (a b : String) (h : Char.ofNat 32 ∈ b.data) :
    Char.ofNat 32 ∈ (a ++ b).data := by
  rw [String.data_append]
  exact List.mem_append.2 (Or.inr h)

/-- Coordinate data lines contain a space separator. -/
lemma space_mem_fmtPt (p : ℚ × ℚ × ℚ) : Char.ofNat 32 ∈ (fmtPt p).data := by
  unfold fmtPt
  exact space_mem_append_left _ _ (space_mem_append_right _ _ (by decide))

/-- Edge-connectivity data lines contain a space separator. -/
lemma space_mem_fmtEdge (i : ℕ) : Char.ofNat 32 ∈ (fmtEdge i).data := by
  unfold fmtEdge
  exact space_mem_append_left _ _ (space_mem_append_right _ _ (by decide))

/-- No line of the `.am` header equals a space-free marker other than the
header's own literal lines `""`, `"\x7d"` and `"@1"`. -/
lemma amHeader_mem_ne (segs : List (List (ℚ × ℚ × ℚ))) (marker : String)
    (hsp : Char.ofNat 32 ∉ marker.data)
    (he : "" ≠ marker) (hb : "\x7d" ≠ marker) (ha1 : "@1" ≠ marker) :
    ∀ l ∈ amHeader segs, l ≠ marker := by
  intro l hl
  unfold amHeader at hl
  simp only [List.mem_cons, List.not_mem_nil, or_false] at hl
  rcases hl with rfl|rfl|rfl|rfl|rfl|rfl|rfl|rfl|rfl|rfl|rfl|rfl|rfl|rfl|rfl|rfl|rfl|rfl|rfl|rfl|rfl
  all_goals first
    | assumption
    | exact ne_of_space _ _ (space_mem_append_left _ _ (by decide)) hsp
    | exact ne_of_space _ _ (by decide) hsp

/-- Every `@1` vertex data line contains a space, hence differs from any
space-free marker. -/
lemma amVertexLines_mem_ne (segs : List (List (ℚ × ℚ × ℚ))) (marker : String)
    (hsp : Char.ofNat 32 ∉ marker.data) :
    ∀ l ∈ amVertexLines segs, l ≠ marker := by
  intro l hl
  unfold amVertexLines at hl
  rcases List.mem_flatten.1 hl with ⟨inner, hin, hl2⟩
  rcases List.mem_map.1 hin with ⟨s, -, rfl⟩
  split_ifs at hl2
  · simp only [List.mem_cons, List.not_mem_nil, or_false] at hl2
    rcases hl2 with rfl | rfl
    · exact ne_of_space _ _ (space_mem_fmtPt _) hsp
    · exact ne_of_space _ _ (space_mem_fmtPt _) hsp
  · simp at hl2

/-- Every `@2` edge data line contains a space, hence differs from any
space-free marker. -/
lemma amEdgeLines_mem_ne (segs : List (List (ℚ × ℚ × ℚ))) (marker : String)
    (hsp : Char.ofNat 32 ∉ marker.data) :
    ∀ l ∈ amEdgeLines segs, l ≠ marker := by
  intro l hl
  unfold amEdgeLines at hl
  rcases List.mem_map.1 hl with ⟨i, -, rfl⟩
  exact ne_of_space _ _ (space_mem_fmtEdge _) hsp

/-- Every `@3` count data line is a nonempty digit string. -/
lemma amCountLines_mem_ne_empty (segs : List (List (ℚ × ℚ × ℚ))) :
    ∀ l ∈ amCountLines segs, l ≠ "" := by
  intro l hl
  rcases List.mem_map.1 hl with ⟨s, -, rfl⟩
  exact nat_toString_ne_empty _

/-- The written file reassociated around its `@2` marker line. -/
lemma write_am_file_shape2 (segs : List (List (ℚ × ℚ × ℚ))) (HA zA : List ℚ) :
    write_am_file segs HA zA
      = (amHeader segs ++ (amVertexLines segs ++ [""]))
        ++ "@2" :: (amEdgeLines segs ++ "" :: ("@3" :: (amCountLines segs
        ++ "" :: ("@4" :: (amPointLines segs ++ "" :: ("@5" :: (amThickLines segs
        ++ "" :: ("@6" :: ((HA.map fun angle => toString angle)
        ++ "" :: ("@7" :: zA.map fun angle => toString angle)))))))))) := by
  unfold write_am_file
  simp only [List.append_assoc, List.cons_append, List.nil_append]

/-- The written file reassociated around its `@3` marker line. -/
lemma write_am_file_shape3 (segs : List (List (ℚ × ℚ × ℚ))) (HA zA : List ℚ) :
    write_am_file segs HA zA
      = (amHeader segs ++ (amVertexLines segs ++ ("" :: "@2"
          :: (amEdgeLines segs ++ [""]))))
        ++ "@3" :: (amCountLines segs
        ++ "" :: ("@4" :: (amPointLines segs ++ "" :: ("@5" :: (amThickLines segs
        ++ "" :: ("@6" :: ((HA.map fun angle => toString angle)
        ++ "" :: ("@7" :: zA.map fun angle => toString angle)))))))) := by
  unfold write_am_file
  simp only [List.append_assoc, List.cons_append, List.nil_append]

/-- C5: the file written by `write_am_file` for `N` streamlines with point
counts `p_1..p_N` declares `VERTEX = 2N`, `EDGE = N` and
`POINT = p_1 + ... + p_N` on lines 4-6, its `@2` section lists the vertex
index pairs `(2i, 2i+1)` for `i = 0..N-1` in order, and its `@3` section
lists exactly `p_1..p_N` in streamline order, one count per line. -/
theorem write_am_file_counts_and_sections (segs : List (List (ℚ × ℚ × ℚ)))
    (HA zA : List ℚ) :
    (write_am_file segs HA zA).take 6
        = ["# AmiraMesh 3D ASCII 3.0", "", "",
           "define VERTEX " ++ toString (2 * segs.length),
           "define EDGE " ++ toString segs.length,
           "define POINT " ++ toString ((segs.map List.length).sum)]
    ∧ sectionAt (write_am_file segs HA zA) "@2"
        = (List.range segs.length).map fmtEdge
    ∧ sectionAt (write_am_file segs HA zA) "@3"
        = segs.map fun segment => toString segment.length := by
  refine ⟨?_, ?_, ?_⟩
  · unfold write_am_file
    simp only [List.append_assoc]
    rw [List.take_append_of_le_length (by unfold amHeader; simp)]
    unfold amHeader
    rw [Nat.mul_comm 2 segs.length]
    rfl
  · rw [write_am_file_shape2]
    show _ = amEdgeLines segs
    apply sectionAt_spec
    · intro l hl
      rcases List.mem_append.1 hl with h | h
      · exact amHeader_mem_ne segs "@2" (by decide) (by decide) (by decide)
          (by decide) l h
      rcases List.mem_append.1 h with h | h
      · exact amVertexLines_mem_ne segs "@2" (by decide) l h
      · simp only [List.mem_singleton] at h
        subst h
        decide
    · exact amEdgeLines_mem_ne segs "" (by decide)
  · rw [write_am_file_shape3]
    show _ = amCountLines segs
    apply sectionAt_spec
    · intro l hl
      rcases List.mem_append.1 hl with h | h
      · exact amHeader_mem_ne segs "@3" (by decide) (by decide) (by decide)
          (by decide) l h
      rcases List.mem_append.1 h with h | h
      · exact amVertexLines_mem_ne segs "@3" (by decide) l h
      simp only [List.mem_cons] at h
      rcases h with rfl | rfl | h
      · decide
      · decide
      rcases List.mem_append.1 h with h | h
      · exact amEdgeLines_mem_ne segs "@3" (by decide) l h
      · simp only [List.mem_singleton] at h
        subst h
        decide
    · exact amCountLines_mem_ne_empty segs
